import Mathlib

/-!
Shallow embedding of the symbol-resolution engine of the Wails3 VS Code
extension (`wailsBindingsImportUtils.ts`, `wailsBindingsUtils.ts`, and the
hover provider's `resolveBindingUri`), together with proofs about the
properties claimed in the specification.

Modelling conventions:
* Strings are `List Char` (`Str`); JavaScript string operations
  (`split`, `trim`, `indexOf`, `startsWith`, ...) are translated to
  executable functions on `List Char`.
* The JavaScript regular expressions used by the source are translated
  regex-by-regex into deterministic matchers.  Every quantified
  subpattern in those regexes is followed by a character from a disjoint
  character class, so greedy maximal-munch matching coincides with the
  backtracking semantics of the JavaScript engine; optional groups are
  translated as an explicit try-the-group-first alternative.
* The filesystem is a finite association list from absolute POSIX paths
  to file contents.  `fs.existsSync`/`fs.accessSync` succeed on a path
  that is a file or a directory of the model; a read failure is
  indistinguishable from absence, which matches the source's uniform
  try/catch-to-null handling.
* VS Code configuration is a record of the three inspectable scopes of
  the `wails.bindingsPath` setting; the mutable per-root detection cache
  is threaded explicitly; file-system operations performed by the
  bindings-directory detection are counted so that claims about "no file
  reads" are expressible.
-/

set_option maxHeartbeats 1000000

namespace Wails

/-- Strings are modelled as lists of characters. -/
abbrev Str := List Char

/-- Character class of the JavaScript `\s` regex class and of `String.trim`
(restricted to the ASCII whitespace characters that can occur in the
inputs of this extension). -/
def isSpace (c : Char) : Bool :=
  c = ' ' || c = '\t' || c = '\n' || c = '\r' || c = Char.ofNat 11 || c = Char.ofNat 12

/-- JavaScript `String.prototype.split` with a single-character separator. -/
def splitCh (sep : Char) : Str → List Str
  | [] => [[]]
  | c :: cs =>
    match splitCh sep cs with
    | [] => [[]]
    | s :: rest => if c = sep then [] :: s :: rest else (c :: s) :: rest

/-- `splitCh` always returns at least one piece. -/
theorem splitCh_ne_nil (sep : Char) (s : Str) : splitCh sep s ≠ [] := by
  cases s with
  | nil => simp [splitCh]
  | cons c cs =>
    simp only [splitCh]
    cases splitCh sep cs with
    | nil => simp
    | cons s rest => by_cases h : c = sep <;> simp [h]

/-- No piece produced by `splitCh` contains the separator. -/
theorem not_mem_of_mem_splitCh {sep : Char} {s : Str} {seg : Str}
    (h : seg ∈ splitCh sep s) : sep ∉ seg := by
  induction s generalizing seg with
  | nil =>
    simp only [splitCh, List.mem_singleton] at h
    subst h; simp
  | cons c cs ih =>
    simp only [splitCh] at h
    rcases hr : splitCh sep cs with _ | ⟨s₀, rest⟩
    · exact absurd hr (splitCh_ne_nil sep cs)
    · rw [hr] at h
      have hs₀ : sep ∉ s₀ := ih (by rw [hr]; exact List.mem_cons_self s₀ rest)
      have hrest : ∀ x ∈ rest, sep ∉ x := fun x hx =>
        ih (by rw [hr]; exact List.mem_cons_of_mem s₀ hx)
      by_cases hc : c = sep
      · simp only [if_pos hc, List.mem_cons] at h
        rcases h with h | h | h
        · subst h; simp
        · subst h; exact hs₀
        · exact hrest _ h
      · simp only [if_neg hc, List.mem_cons] at h
        rcases h with h | h
        · subst h
          intro hmem
          rcases List.mem_cons.mp hmem with h' | h'
          · exact hc h'.symm
          · exact hs₀ h'
        · exact hrest _ h

/-- JavaScript `String.prototype.trim`. -/
def jsTrim (s : Str) : Str :=
  ((s.dropWhile isSpace).reverse.dropWhile isSpace).reverse

/-- First index at which `needle` occurs in `hay` (JavaScript `indexOf`,
with `none` standing for `-1`). -/
def indexOfStr (hay needle : Str) : Option Nat :=
  match hay with
  | [] => if needle = [] then some 0 else none
  | _ :: rest =>
    if needle.isPrefixOf hay then some 0
    else (indexOfStr rest needle).map (· + 1)

/-- JavaScript `String.prototype.includes` / substring test. -/
def containsStr (hay needle : Str) : Bool :=
  (indexOfStr hay needle).isSome

/-- `String.prototype.toLowerCase`, character by character. -/
def lowerStr (s : Str) : Str := s.map Char.toLower

end Wails

namespace Wails

/-! ## POSIX path primitives (`node:path`, `sep = '/'`)

All paths handled by the embedding are absolute, `/`-separated and
normalized (no `.` / `..` segments, no trailing slash), matching what the
extension receives from VS Code `Uri.fsPath` values on POSIX systems. -/

/-- Join path pieces with `/` (Node `path.join` on already-clean pieces). -/
def joinPath (dir name : Str) : Str := dir ++ '/' :: name

/-- Node `path.basename` for a normalized path: the part after the last
slash. -/
def basename (p : Str) : Str :=
  (splitCh '/' p).getLastD []

/-- Node `path.dirname` for a normalized path. -/
def dirname (p : Str) : Str :=
  match indexOfStr p.reverse ['/'] with
  | none => ['.']
  | some i =>
    let keep := p.length - 1 - i
    if keep = 0 then ['/'] else p.take keep

/-- Drop the common prefix of two segment lists (helper of `relativePath`). -/
def dropCommonPrefix : List Str → List Str → List Str × List Str
  | a :: as, b :: bs => if a = b then dropCommonPrefix as bs else (a :: as, b :: bs)
  | as, bs => (as, bs)

/-- Node `path.relative` for normalized absolute paths: drop the common
segment prefix, then go up with `..` for what remains of `from`. -/
def relativePath (fromP toP : Str) : Str :=
  let fa := (splitCh '/' fromP).filter (· ≠ [])
  let ta := (splitCh '/' toP).filter (· ≠ [])
  let (fr, tr) := dropCommonPrefix fa ta
  List.intercalate ['/'] (fr.map (fun _ => ['.', '.']) ++ tr)

end Wails

namespace Wails

/-! ## Filesystem model -/

/-- A filesystem: finite map from absolute file paths to contents. -/
abbrev FS := List (Str × Str)

/-- `fs.readFileSync`, with `none` for any read error. -/
def readFile (fs : FS) (p : Str) : Option Str :=
  (fs.find? (fun e => e.1 = p)).map (·.2)

/-- True when `p` names a regular file of the model. -/
def isFile (fs : FS) (p : Str) : Bool :=
  (readFile fs p).isSome

/-- True when `p` names a directory of the model (some file lives under it). -/
def isDir (fs : FS) (p : Str) : Bool :=
  fs.any (fun e => (p ++ ['/']).isPrefixOf e.1)

/-- `fs.existsSync` / a successful `fs.accessSync`. -/
def pathExists (fs : FS) (p : Str) : Bool :=
  isFile fs p || isDir fs p

/-- Name of the first path segment of `s` (up to the first `/`). -/
def firstSeg (s : Str) : Str := s.takeWhile (· ≠ '/')

/-- Insert into a list keeping each element once, preserving first
occurrence order (used for directory listings). -/
def pushNew (xs : List Str) (x : Str) : List Str :=
  if x ∈ xs then xs else xs ++ [x]

/-- `fs.readdirSync`: the immediate children of directory `p`, in the
 order induced by the filesystem listing; `none` when `p` is not a
 directory (the call throws). -/
def readdir (fs : FS) (p : Str) : Option (List Str) :=
  if isDir fs p then
    some <| fs.foldl (fun acc e =>
      if (p ++ ['/']).isPrefixOf e.1 then
        pushNew acc (firstSeg (e.1.drop (p.length + 1)))
      else acc) []
  else none

end Wails

namespace Wails

/-! ## `isInsideBindingsDir` (`wailsBindingsUtils.ts`) -/

/-- `bindingsDir.replace(/\\/g, "/").replace(/\/$/, "")`: backslashes to
slashes, then one trailing slash dropped. -/
def normaliseBD (bindingsDir : Str) : Str :=
  let n := bindingsDir.map (fun c => if c = '\\' then '/' else c)
  if n.getLast? = some '/' then n.dropLast else n

/-- `isInsideBindingsDir(filePath, workspacePath, bindingsDir)`: segment
membership for a simple name, literal-prefix containment for a
multi-segment relative path. -/
def isInsideBindingsDir (filePath workspacePath bindingsDir : Str) : Bool :=
  let relative := relativePath workspacePath filePath
  if '/' ∈ bindingsDir then
    (normaliseBD bindingsDir ++ ['/']).isPrefixOf relative ||
      relative = normaliseBD bindingsDir
  else
    bindingsDir ∈ splitCh '/' relative

end Wails

namespace Wails

/-! ## Import parser (`wailsBindingsImportUtils.ts`)

The three import regexes are translated as deterministic matchers at a
fixed start position plus a scanner that replays the JavaScript
global-`exec` loop (leftmost match, resume after the match end). -/

/-- The `\x7b` character. -/
def lbrace : Char := Char.ofNat 123

/-- The `\x7d` character. -/
def rbrace : Char := Char.ofNat 125

/-- Match a literal, returning the rest of the input. -/
def litP (lit : Str) (s : Str) : Option Str :=
  if lit.isPrefixOf s then some (s.drop lit.length) else none

/-- Match `\s+` (greedy; always followed by a non-space construct in the
translated regexes, so maximal munch is exact). -/
def wsPlus : Str → Option Str
  | [] => none
  | c :: rest => if isSpace c then some (rest.dropWhile isSpace) else none

/-- Match a single `'` or `"` (the `['"]` class). -/
def quoteP : Str → Option Str
  | [] => none
  | c :: rest => if c = '\'' || c = '"' then some rest else none

/-- First character of a JavaScript identifier: `[A-Za-z_$]`. -/
def isIdStart (c : Char) : Bool := c.isAlpha || c = '_' || c = '$'

/-- Subsequent character of a JavaScript identifier: `[A-Za-z0-9_$]`. -/
def isIdChar (c : Char) : Bool := c.isAlphanum || c = '_' || c = '$'

/-- Match `([A-Za-z_$][A-Za-z0-9_$]*)`, returning the capture and rest. -/
def idP : Str → Option (Str × Str)
  | [] => none
  | c :: rest =>
    if isIdStart c then
      some (c :: rest.takeWhile isIdChar, rest.dropWhile isIdChar)
    else none

/-- Match `from\s+['"]([^'"]*)['"]`, returning the specifier capture. -/
def isSpecChar (c : Char) : Bool := c ≠ '\'' && c ≠ '"'

def fromClause (s : Str) : Option (Str × Str) := do
  let s₁ ← litP "from".data s
  let s₂ ← wsPlus s₁
  let s₃ ← quoteP s₂
  let s₅ ← quoteP (s₃.dropWhile isSpecChar)
  pure (s₃.takeWhile isSpecChar, s₅)

/-- Try the optional `(?:type\s+)?` group first, then without it (the
preference order of a greedy optional group). -/
def optType (k : Str → Option α) (s : Str) : Option α :=
  match (do
    let t ← litP "type".data s
    let t₂ ← wsPlus t
    k t₂) with
  | some r => some r
  | none => k s

/-- Matcher of `nsRegex`:
`import\s+(?:type\s+)?\*\s+as\s+(ID)\s+from\s+['"]([^'"]*)['"]`. -/
def nsMatchAt (s : Str) : Option ((Str × Str) × Str) := do
  let s₁ ← litP "import".data s
  let s₂ ← wsPlus s₁
  optType (fun t => do
    let a ← litP "*".data t
    let b ← wsPlus a
    let c ← litP "as".data b
    let d ← wsPlus c
    let (name, e) ← idP d
    let f ← wsPlus e
    let (spec, rest) ← fromClause f
    pure ((name, spec), rest)) s₂

/-- Matcher of `namedRegex`:
`import\s+(?:type\s+)?\x7b([^\x7d]+)\x7d\s+from\s+['"]([^'"]*)['"]`. -/
def namedMatchAt (s : Str) : Option ((Str × Str) × Str) := do
  let s₁ ← litP "import".data s
  let s₂ ← wsPlus s₁
  optType (fun t => do
    let a ← litP [lbrace] t
    let inner := a.takeWhile (fun c => c ≠ rbrace)
    if inner = [] then none
    else do
      let b ← litP [rbrace] (a.dropWhile (fun c => c ≠ rbrace))
      let c ← wsPlus b
      let (spec, rest) ← fromClause c
      pure ((inner, spec), rest)) s₂

/-- Matcher of `defaultRegex`:
`import\s+(?:type\s+)?([A-Za-z_$][A-Za-z0-9_$]*)\s+from\s+['"]([^'"]*)['"]`. -/
def defMatchAt (s : Str) : Option ((Str × Str) × Str) := do
  let s₁ ← litP "import".data s
  let s₂ ← wsPlus s₁
  optType (fun t => do
    let (name, e) ← idP t
    let f ← wsPlus e
    let (spec, rest) ← fromClause f
    pure ((name, spec), rest)) s₂

/-- Fuel-indexed body of the global `exec` loop. -/
def execAllGo (m : Str → Option (α × Str)) : Nat → Str → List α
  | 0, _ => []
  | _ + 1, [] => []
  | n + 1, c :: rest =>
    match m (c :: rest) with
    | some (a, r) => a :: execAllGo m n r
    | none => execAllGo m n rest

/-- All successive matches of a (consuming) matcher, replaying the
JavaScript `while ((m = re.exec(text)) !== null)` loop. -/
def execAll (m : Str → Option (α × Str)) (s : Str) : List α :=
  execAllGo m s.length s

/-- Matcher of the separator regex `\s+as\s+` used by `String.split`. -/
def asSepAt (s : Str) : Option Str := do
  let a ← wsPlus s
  let b ← litP "as".data a
  wsPlus b

/-- Fuel-indexed body of `split(/\s+as\s+/)`. -/
def splitAsGo : Nat → Str → Str → List Str
  | 0, acc, s => [acc.reverse ++ s]
  | _ + 1, acc, [] => [acc.reverse]
  | n + 1, acc, c :: rest =>
    match asSepAt (c :: rest) with
    | some r => acc.reverse :: splitAsGo n [] r
    | none => splitAsGo n (c :: acc) rest

/-- JavaScript `str.split(/\s+as\s+/)`. -/
def splitAsSep (s : Str) : List Str := splitAsGo s.length [] s

/-- One parsed import statement of interest (`BindingsImport`). -/
structure BindingsImport where
  localName : Str
  isNamespace : Bool
  specifier : Str
deriving DecidableEq, Repr

/-- `specifierContainsBindings(specifier, bindingsDir)`: split the
specifier on `/` and test whole-segment membership. -/
def specifierContainsBindings (specifier bindingsDir : Str) : Bool :=
  decide (bindingsDir ∈ splitCh '/' specifier)

/-- The name list of one destructured import:
`m[1].split(",").map(n => n.trim().split(/\s+as\s+/).pop()!.trim()).filter(Boolean)`. -/
def namedNames (inner : Str) : List Str :=
  ((splitCh ',' inner).map
    (fun n => jsTrim ((splitAsSep (jsTrim n)).getLastD []))).filter (· ≠ [])

/-- `parseBindingsImports(document, bindingsDir)`: namespace imports,
then destructured imports (one record per local name), then default
imports, each gated by `specifierContainsBindings`. -/
def parseBindingsImports (text bindingsDir : Str) : List BindingsImport :=
  ((execAll nsMatchAt text).filterMap (fun p =>
    if specifierContainsBindings p.2 bindingsDir then
      some ⟨p.1, true, p.2⟩ else none))
  ++ ((execAll namedMatchAt text).flatMap (fun p =>
    if specifierContainsBindings p.2 bindingsDir then
      (namedNames p.1).map (fun name => ⟨name, true, p.2⟩) else []))
  ++ ((execAll defMatchAt text).filterMap (fun p =>
    if specifierContainsBindings p.2 bindingsDir then
      some ⟨p.1, true, p.2⟩ else none))

end Wails

namespace Wails

/-! ## Bindings-directory detection (`wailsBindingsUtils.ts`) -/

/-- Test `/^[A-Za-z]/` on the raw line. -/
def firstAlpha : Str → Bool
  | [] => false
  | c :: _ => c.isAlpha

/-- Test `^\s+<kw>` on the raw line (one or more leading whitespace
characters followed by the literal keyword). -/
def wsHeader (kw : String) (raw : Str) : Bool :=
  match raw with
  | [] => false
  | c :: rest => isSpace c && kw.data.isPrefixOf (rest.dropWhile isSpace)

/-- Test `/^['"]?generate:bindings['"]?:/` on the trimmed line. -/
def quotedGB (t : Str) : Bool :=
  let core := fun (u : Str) =>
    match litP "generate:bindings".data u with
    | none => false
    | some v =>
      match v with
      | [] => false
      | c :: r =>
        if c = '\'' || c = '"' then r.head? = some ':' else c = ':'
  match t with
  | c :: rest => if c = '\'' || c = '"' then core rest else core t
  | [] => false

/-- Matcher of `wails3\s+generate\s+bindings` at the start of the input. -/
def w3At (s : Str) : Bool :=
  (do
    let a ← litP "wails3".data s
    let b ← wsPlus a
    let c ← litP "generate".data b
    let d ← wsPlus c
    litP "bindings".data d).isSome

/-- Unanchored `test` of a Boolean matcher: try every start position. -/
def containsMatchB (m : Str → Bool) : Str → Bool
  | [] => m []
  | c :: rest => m (c :: rest) || containsMatchB m rest

/-- Matcher of `\s-(?:d|dir)\s+['"]?([^\s'"]+)['"]?` at the start of the
input, returning the capture group. -/
def dFlagAt : Str → Option Str
  | [] => none
  | c :: rest =>
    if isSpace c then
      match rest with
      | '-' :: r2 =>
        let afterKey : Option Str :=
          match r2 with
          | 'd' :: r3 =>
            match wsPlus r3 with
            | some r4 => some r4
            | none =>
              match r3 with
              | 'i' :: 'r' :: r5 => wsPlus r5
              | _ => none
          | _ => none
        match afterKey with
        | none => none
        | some r4 =>
          let r5 := match r4 with
            | q :: rr => if q = '\'' || q = '"' then rr else r4
            | [] => r4
          let cap := r5.takeWhile (fun ch => !isSpace ch && ch ≠ '\'' && ch ≠ '"')
          if cap = [] then none else some cap
      | _ => none
    else none

/-- Leftmost match of the `-d`/`-dir` flag regex (`String.match`). -/
def dFlagExtract : Str → Option Str
  | [] => none
  | c :: rest =>
    match dFlagAt (c :: rest) with
    | some d => some d
    | none => dFlagExtract rest

/-- `entry.replace(/^-\s*['"]?/, "")`. -/
def dropDashWsQuote (t : Str) : Str :=
  match t with
  | '-' :: r =>
    let r2 := r.dropWhile isSpace
    match r2 with
    | q :: rr => if q = '\'' || q = '"' then rr else r2
    | [] => r2
  | _ => t

/-- `entry.replace(/['"]?\s*$/, "")` for an input with no trailing
whitespace (the input is always a trimmed line here). -/
def dropTrailQuote (t : Str) : Str :=
  match t.getLast? with
  | some q => if q = '\'' || q = '"' then t.dropLast else t
  | none => t

/-- The possible matches of the anchored suffix regex
`\/?\*\*\/?\*?$`, longest first (leftmost match removes the longest
matching suffix). -/
def globSuffixes : List Str :=
  [ "/**/*".data, "/**/".data, "/***".data, "**/*".data,
    "/**".data, "**/".data, "***".data, "**".data ]

/-- `entry.replace(/\/?\*\*\/?\*?$/, "").replace(/\/\*$/, "")`. -/
def stripGlob (e : Str) : Str :=
  let c1 :=
    match globSuffixes.find? (fun suf => suf.isSuffixOf e) with
    | some suf => e.take (e.length - suf.length)
    | none => e
  if ("/*".data).isSuffixOf c1 then c1.take (c1.length - 2) else c1

/-- The line loop of `parseTaskfileForBindingsDir` (the version that
returns the full cleaned path from a `generates:` entry), with the
`inGenerateBindings` / `inCmds` / `inGenerates` state machine.  The
source's `/^\s+\w+:/ && !inCmds && !inGenerates` branch only re-assigns
`false` to already-`false` flags and is omitted as a no-op. -/
def parseTaskfileLines : List Str → Bool → Bool → Bool → Option Str
  | [], _, _, _ => none
  | raw :: rest, inGB, inCmds, inGens =>
    let t := jsTrim raw
    if ("generate:bindings:".data).isPrefixOf t || quotedGB t then
      parseTaskfileLines rest true false false
    else if inGB && firstAlpha raw && ':' ∈ t && !(['-'].isPrefixOf t) then
      parseTaskfileLines rest false false false
    else if !inGB then
      parseTaskfileLines rest inGB inCmds inGens
    else if wsHeader "cmds:" raw then
      parseTaskfileLines rest inGB true false
    else if wsHeader "generates:" raw then
      parseTaskfileLines rest inGB false true
    else
      match (if inCmds && containsMatchB w3At t then dFlagExtract t else none) with
      | some d => some d
      | none =>
        if inGens && ['-'].isPrefixOf t then
          let entry := dropTrailQuote (dropDashWsQuote t)
          if ("exclude:".data).isPrefixOf entry then
            parseTaskfileLines rest inGB inCmds inGens
          else
            let cleaned := stripGlob entry
            if cleaned ≠ [] && '/' ∈ cleaned then some cleaned
            else parseTaskfileLines rest inGB inCmds inGens
        else parseTaskfileLines rest inGB inCmds inGens

/-- `parseTaskfileForBindingsDir(taskfilePath)`: one `readFileSync`, a
line split, then the state-machine scan; any read error yields `null`. -/
def parseTaskfileForBindingsDir (fs : FS) (taskfilePath : Str) : Option Str :=
  match readFile fs taskfilePath with
  | none => none
  | some content => parseTaskfileLines (splitCh '\n' content) false false false

/-- One name iteration of `detectBindingsDirFromTaskfile`, counting the
file-system operations (`existsSync` probes and `readFileSync` reads)
performed. -/
def detectGo (fs : FS) (ws : Str) : List Str → Option Str × Nat
  | [] => (none, 0)
  | name :: rest =>
    let p := joinPath ws name
    let r1 : Option Str × Nat :=
      if pathExists fs p then (parseTaskfileForBindingsDir fs p, 2) else (none, 1)
    match r1 with
    | (some d, c1) => (some d, c1)
    | (none, c1) =>
      let bp := joinPath (joinPath ws "build".data) name
      let r2 : Option Str × Nat :=
        if pathExists fs bp then (parseTaskfileForBindingsDir fs bp, c1 + 2)
        else (none, c1 + 1)
      match r2 with
      | (some d, c2) => (some d, c2)
      | (none, c2) =>
        let r3 := detectGo fs ws rest
        (r3.1, c2 + r3.2)

/-- `detectBindingsDirFromTaskfile(workspacePath)`: root Taskfile first,
then the `build/` copy, for both filename variants. -/
def detectBindingsDirFromTaskfile (fs : FS) (ws : Str) : Option Str × Nat :=
  detectGo fs ws [ "Taskfile.yml".data, "Taskfile.yaml".data ]

/-- The three inspectable scopes of the `wails.bindingsPath` setting
(`config.inspect`); `none` is `undefined` (never assigned). -/
structure BindingsConfig where
  globalValue : Option Str
  workspaceValue : Option Str
  workspaceFolderValue : Option Str
deriving DecidableEq, Repr

/-- `config.get("bindingsPath", "bindings")`: the effective value under
VS Code scope precedence, defaulting to `"bindings"`. -/
def configGet (cfg : BindingsConfig) : Str :=
  ((cfg.workspaceFolderValue.orElse fun _ =>
    cfg.workspaceValue).orElse fun _ => cfg.globalValue).getD "bindings".data

/-- Provenance check of `getBindingsDir`: was the setting ever assigned
in any scope? -/
def isExplicitlySet (cfg : BindingsConfig) : Bool :=
  cfg.workspaceValue.isSome || cfg.workspaceFolderValue.isSome || cfg.globalValue.isSome

/-- The `taskfileBindingsCache` map: project root to detected directory
(`some (some d)`), or to the explicit `null` marker (`some none`). -/
abbrev BindingsCache := List (Str × Option Str)

/-- `Map.get` combined with `Map.has` (`none` = no entry). -/
def cacheGet (c : BindingsCache) (k : Str) : Option (Option Str) :=
  (c.find? (fun e => e.1 = k)).map (·.2)

/-- `Map.set`. -/
def cacheSet (c : BindingsCache) (k : Str) (v : Option Str) : BindingsCache :=
  (k, v) :: c.filter (fun e => e.1 ≠ k)

/-- The extension's host state: a filesystem, the `wails.bindingsPath`
configuration and the workspace root. -/
structure Env where
  fs : FS
  config : BindingsConfig
  wsRoot : Str

/-- `getBindingsDir(workspaceFolder)`: explicit setting first; then the
cache (`null` marker answers with the configured default); on a cache
miss, detection runs and its result — successful or not — is stored.
Returns the value, the updated cache, and the number of file-system
operations performed. -/
def getBindingsDir (env : Env) (cache : BindingsCache) : Str × BindingsCache × Nat :=
  let configured := configGet env.config
  if isExplicitlySet env.config then (configured, cache, 0)
  else
    match cacheGet cache env.wsRoot with
    | some (some v) => (v, cache, 0)
    | some none => (configured, cache, 0)
    | none =>
      let d := detectBindingsDirFromTaskfile env.fs env.wsRoot
      let cache' := cacheSet cache env.wsRoot d.1
      match d.1 with
      | some v => (v, cache', d.2)
      | none => (configured, cache', d.2)

/-- `getFullBindingsPath(workspaceFolder)`: like `getBindingsDir`, but a
cached `null` marker falls through to a fresh detection attempt, and a
failed detection is never written to the cache. -/
def getFullBindingsPath (env : Env) (cache : BindingsCache) : Str × BindingsCache × Nat :=
  let configured := configGet env.config
  if isExplicitlySet env.config then (configured, cache, 0)
  else
    match cacheGet cache env.wsRoot with
    | some (some v) => (v, cache, 0)
    | _ =>
      let d := detectBindingsDirFromTaskfile env.fs env.wsRoot
      match d.1 with
      | some v => (v, cacheSet cache env.wsRoot (some v), d.2)
      | none => (configured, cache, d.2)

end Wails

namespace Wails

/-! ## Go source lookup (`wailsBindingsUtils.ts`)

Regex notes: every quantifier in the declaration regexes is followed by a
disjoint character class (for the identifier-shaped symbol names these
functions receive), so maximal munch is exact. -/

/-- Suffix test against a literal. -/
def endsWithS (suf : String) (s : Str) : Bool := suf.data.isSuffixOf s

/-- Match `[^)]+` (greedy, always followed by the disjoint `\)`). -/
def chPlus (p : Char → Bool) : Str → Option Str
  | [] => none
  | c :: rest => if p c then some (rest.dropWhile p) else none

/-- Match the tail `SYM\s*\(` shared by the declaration regexes. -/
def symParen (sym s : Str) : Bool :=
  match litP sym s with
  | none => false
  | some r => (r.dropWhile isSpace).head? = some '('

/-- `^func\s+\([^)]+\)\s+SYM\s*\(` — method with receiver clause. -/
def funcRecvLine (sym line : Str) : Bool :=
  match (do
    let a ← litP "func".data line
    let b ← wsPlus a
    let c ← litP ['('] b
    let d ← chPlus (fun ch => ch ≠ ')') c
    let e ← litP [')'] d
    wsPlus e) with
  | some f => symParen sym f
  | none => false

/-- `^func\s+SYM\s*\(` — plain function declaration. -/
def funcPlainLine (sym line : Str) : Bool :=
  match (do
    let a ← litP "func".data line
    wsPlus a) with
  | some b => symParen sym b
  | none => false

/-- `funcRegex`: `^func\s+(\([^)]+\)\s+)?SYM\s*\(` (the optional receiver
group expanded into its two alternatives). -/
def goFuncLine (sym line : Str) : Bool :=
  funcRecvLine sym line || funcPlainLine sym line

/-- `typeRegex`: `^type\s+SYM\s+`. -/
def goTypeLine (sym line : Str) : Bool :=
  match (do
    let a ← litP "type".data line
    wsPlus a) with
  | some b =>
    match litP sym b with
    | some c => (wsPlus c).isSome
    | none => false
  | none => false

/-- A line declaring `sym` in one of the three recognized shapes. -/
def goSymbolLine (sym line : Str) : Bool :=
  goFuncLine sym line || goTypeLine sym line

/-- A resolved backend location (`vscode.Location`, zero-based). -/
structure GoLocation where
  file : Str
  line : Nat
  col : Nat
deriving DecidableEq, Repr

/-- `searchGoFileForSymbol(goFileUri, symbolName)`: first matching line
from the top; column is `line.indexOf(symbolName)`, or `0` when the
symbol does not occur verbatim. -/
def searchGoFileForSymbol (fs : FS) (goFile sym : Str) : Option GoLocation :=
  match readFile fs goFile with
  | none => none
  | some content =>
    let lines := splitCh '\n' content
    match lines.findIdx? (goSymbolLine sym) with
    | none => none
    | some i => some ⟨goFile, i, (indexOfStr (lines.getD i []) sym).getD 0⟩

/-- Capture of `^module\s+(.+)$` on one line (`.` excludes newlines; the
greedy `\s+` backtracks by one character when the remainder is all
whitespace). -/
def moduleLineCapture (line : Str) : Option Str :=
  match litP "module".data line with
  | none => none
  | some rest =>
    match rest with
    | [] => none
    | c :: _ =>
      if isSpace c then
        let tail := rest.dropWhile isSpace
        if tail ≠ [] then some tail
        else if rest.length ≥ 2 then some [rest.getLastD ' ']
        else none
      else none

/-- `parseModuleName(goModPath)`: first line matching the module
declaration, trimmed. -/
def parseModuleName (fs : FS) (goModPath : Str) : Option Str :=
  match readFile fs goModPath with
  | none => none
  | some content =>
    match (splitCh '\n' content).findSome? moduleLineCapture with
    | some cap => some (jsTrim cap)
    | none => none

/-- Loop body of `findGoModFileFromPath` (fuel bounds the upward walk,
which strictly shortens the path). -/
def findGoModGo (fs : FS) (wsNorm : Str) : Nat → Str → Option Str
  | 0, _ => none
  | n + 1, currentDir =>
    if wsNorm.isPrefixOf currentDir then
      let gm := joinPath currentDir "go.mod".data
      if pathExists fs gm then some gm
      else
        let parent := dirname currentDir
        if parent = currentDir then none
        else findGoModGo fs wsNorm n parent
    else none

/-- `findGoModFileFromPath(startPath, workspacePath)`. -/
def findGoModFileFromPath (fs : FS) (startPath wsPath : Str) : Option Str :=
  findGoModGo fs wsPath (startPath.length + 1) (dirname startPath)

/-- First index at which `pat` occurs as a consecutive run in `segments`
(the nested matching loop of `constructGoFilePath`). -/
def findConsecIdx (segments pat : List Str) : Option Nat :=
  if pat.isPrefixOf segments then some 0
  else
    match segments with
    | [] => none
    | _ :: t => (findConsecIdx t pat).map (· + 1)

/-- `path.join(root, ...segs)` for clean segments. -/
def joinSegs (root : Str) (segs : List Str) : Str :=
  if segs = [] then root else root ++ '/' :: List.intercalate ['/'] segs

/-- `constructGoFilePath(workspacePath, bindingsFilePath, goFileName)`:
locate `go.mod`, read the module name, find the bindings-directory
segments inside the project-relative path, and map the remaining package
segments onto the module root.  Calls `getBindingsDir()` and therefore
threads the cache. -/
def constructGoFilePath (env : Env) (cache : BindingsCache) (bindingsFilePath goFileName : Str) :
    Option Str × BindingsCache :=
  match findGoModFileFromPath env.fs bindingsFilePath env.wsRoot with
  | none => (none, cache)
  | some goModPath =>
    let projectRoot := dirname goModPath
    match parseModuleName env.fs goModPath with
    | none => (none, cache)
    | some moduleName =>
      if moduleName = [] then (none, cache)
      else
        let r := getBindingsDir env cache
        let cache₁ := r.2.1
        let segments := splitCh '/' (relativePath projectRoot bindingsFilePath)
        let bindingsSegments := splitCh '/' r.1
        match findConsecIdx segments bindingsSegments with
        | none => (none, cache₁)
        | some bIdx =>
          let packageSegments := (segments.drop (bIdx + bindingsSegments.length)).dropLast
          if packageSegments = [] then (none, cache₁)
          else
            let firstSegment := packageSegments.headD []
            let moduleSegments := splitCh '/' moduleName
            let isOwnModule := moduleSegments.isPrefixOf packageSegments
            if !isOwnModule && '.' ∈ firstSegment then (none, cache₁)
            else if isOwnModule then
              let subPath := packageSegments.drop moduleSegments.length
              if subPath = [] then (none, cache₁)
              else (some (joinSegs projectRoot (subPath ++ [goFileName])), cache₁)
            else if firstSegment = basename moduleName || firstSegment = moduleName then
              (some (joinSegs projectRoot (packageSegments.drop 1 ++ [goFileName])), cache₁)
            else
              (some (joinSegs projectRoot (packageSegments ++ [goFileName])), cache₁)

/-- Whether `p` lies strictly under directory `root`. -/
def underRoot (root p : Str) : Bool := (root ++ ['/']).isPrefixOf p

/-- The `root`-relative segments of `p`. -/
def relSegs (root p : Str) : List Str := splitCh '/' (p.drop (root.length + 1))

/-- `pat` occurs as a consecutive segment run with at least one segment
after it (the meaning of a `**/pat/**` exclusion glob). -/
def hasMidInfix (segs pat : List Str) : Bool :=
  (pat.isPrefixOf segs && decide (pat.length < segs.length)) ||
    match segs with
    | [] => false
    | _ :: t => hasMidInfix t pat

/-- `vscode.workspace.findFiles(new RelativePattern(ws, "**/name"),
"{**/node_modules/**,**/.direnv/**,**/vendor/**,**/bindingsDir/**}")`,
in filesystem listing order. -/
def findFilesByName (fs : FS) (root name bindingsDir : Str) : List Str :=
  (fs.map (fun e => e.1)).filter (fun p =>
    underRoot root p &&
    basename p = name &&
    !hasMidInfix (relSegs root p) [ "node_modules".data ] &&
    !hasMidInfix (relSegs root p) [ ".direnv".data ] &&
    !hasMidInfix (relSegs root p) [ "vendor".data ] &&
    !hasMidInfix (relSegs root p) (splitCh '/' bindingsDir))

/-- Matcher of `export\s+function\s+SYM\s*\(` at the start of the input. -/
def exportFnAt (sym s : Str) : Bool :=
  match (do
    let a ← litP "export".data s
    let b ← wsPlus a
    let c ← litP "function".data b
    wsPlus c) with
  | some d => symParen sym d
  | none => false

/-- Unanchored test of the re-export regex over a file's content. -/
def hasExportFn (sym content : Str) : Bool :=
  containsMatchB (exportFnAt sym) content

/-- Filename filter of `resolveReExportFromIndex`: not an index file,
a `.js`/`.ts` file, not a declaration file. -/
def siblingOkName (f : Str) : Bool :=
  f ≠ "index.js".data && f ≠ "index.ts".data && f ≠ "index.d.ts".data &&
  (endsWithS ".js" f || endsWithS ".ts" f) && !endsWithS ".d.ts" f

/-- The sibling loop of `resolveReExportFromIndex`.  An entry that
passes the source-file name filter is read; since the source's single
`try/catch` wraps the whole loop, a read failure (e.g. `EISDIR` on a
directory named `*.js`, or a permission error) aborts the entire
resolution to `null` rather than skipping the entry. -/
def reExportLoop (fs : FS) (dir sym : Str) : List Str → Option Str
  | [] => none
  | f :: rest =>
    if siblingOkName f then
      match readFile fs (joinPath dir f) with
      | none => none
      | some content =>
        if hasExportFn sym content then some (joinPath dir f)
        else reExportLoop fs dir sym rest
    else reExportLoop fs dir sym rest

/-- `resolveReExportFromIndex(indexUri, symbolName)`: first sibling (in
directory order) whose text matches the export regex for the symbol;
`null` when the directory listing or any attempted sibling read
throws. -/
def resolveReExportFromIndex (fs : FS) (indexPath sym : Str) : Option Str :=
  match readdir fs (dirname indexPath) with
  | none => none
  | some files => reExportLoop fs (dirname indexPath) sym files

/-- `stem`: the binding filename with `(\.(d\.ts|js|ts))$` removed
(leftmost match removes the longest matching suffix). -/
def stripBindingExt (name : Str) : Str :=
  if endsWithS ".d.ts" name then name.take (name.length - 5)
  else if endsWithS ".js" name then name.take (name.length - 3)
  else if endsWithS ".ts" name then name.take (name.length - 3)
  else name

/-- First scan hit over a candidate list (the `for ... of candidates`
loops of `findGoDefinition`). -/
def firstLocIn (fs : FS) (sym : Str) : List Str → Option GoLocation
  | [] => none
  | f :: rest =>
    match searchGoFileForSymbol fs f sym with
    | some l => some l
    | none => firstLocIn fs sym rest

/-- The parent-directory-stem retry of `findGoDefinition` (taken when the
directly constructed path is `null` or does not exist). -/
def goDefParentFallback (env : Env) (cache : BindingsCache) (bindingPath stem sym : Str) :
    Option GoLocation × BindingsCache :=
  let parentDirName := basename (dirname bindingPath)
  if parentDirName ≠ stem then
    let r := constructGoFilePath env cache bindingPath (parentDirName ++ ".go".data)
    match r.1 with
    | some g2 =>
      if pathExists env.fs g2 then (searchGoFileForSymbol env.fs g2 sym, r.2)
      else (none, r.2)
    | none => (none, r.2)
  else (none, cache)

/-- The non-barrel part of `findGoDefinition`: direct construction,
parent-stem retry, then the bounded project-wide search. -/
def findGoDefinitionCore (env : Env) (cache : BindingsCache) (bindingPath sym : Str) :
    Option GoLocation × BindingsCache :=
  let stem := stripBindingExt (basename bindingPath)
  let goFileName := stem ++ ".go".data
  let r1 := constructGoFilePath env cache bindingPath goFileName
  let direct : Option GoLocation × BindingsCache :=
    match r1.1 with
    | some gfp =>
      if pathExists env.fs gfp then (searchGoFileForSymbol env.fs gfp sym, r1.2)
      else goDefParentFallback env r1.2 bindingPath stem sym
    | none => goDefParentFallback env r1.2 bindingPath stem sym
  match direct with
  | (some loc, c) => (some loc, c)
  | (none, c) =>
    let r3 := getBindingsDir env c
    (firstLocIn env.fs sym (findFilesByName env.fs env.wsRoot goFileName r3.1), r3.2.1)

/-- `findGoDefinition(workspaceFolder, bindingUri, symbolName)` with an
explicit recursion bound for the barrel-file redirection (a resolved
sibling is never itself an index file, so depth one always suffices). -/
def findGoDefinitionFuel (env : Env) : Nat → BindingsCache → Str → Str →
    Option GoLocation × BindingsCache
  | 0, cache, _, _ => (none, cache)
  | n + 1, cache, bindingPath, sym =>
    if stripBindingExt (basename bindingPath) = "index".data then
      match resolveReExportFromIndex env.fs bindingPath sym with
      | some actual => findGoDefinitionFuel env n cache actual sym
      | none => (none, cache)
    else findGoDefinitionCore env cache bindingPath sym

/-- `findGoDefinition`, at the fuel that covers the source's recursion. -/
def findGoDefinition (env : Env) (cache : BindingsCache) (bindingPath sym : Str) :
    Option GoLocation × BindingsCache :=
  findGoDefinitionFuel env 2 cache bindingPath sym

end Wails

namespace Wails

/-! ## Specifier resolution (`wailsBindingsImportUtils.ts` and the hover
provider's `resolveBindingUri`) -/

/-- Segment-level path normalization (handles `.`, `..`, empty segments)
used by `path.resolve`. -/
def normSegsGo : List Str → List Str → List Str
  | acc, [] => acc.reverse
  | acc, seg :: rest =>
    if seg = [] || seg = ['.'] then normSegsGo acc rest
    else if seg = ['.', '.'] then normSegsGo (acc.drop 1) rest
    else normSegsGo (seg :: acc) rest

/-- Normalize an absolute `/`-separated path. -/
def normalizeAbs (p : Str) : Str :=
  '/' :: List.intercalate ['/'] (normSegsGo [] (splitCh '/' p))

/-- Node `path.resolve(dir, rel)` with an absolute `dir`. -/
def pathResolve (dir rel : Str) : Str :=
  if rel.head? = some '/' then normalizeAbs rel else normalizeAbs (dir ++ '/' :: rel)

/-- Test of `/\.(js|ts|mjs|mts)$/`. -/
def hasJsTsExt (p : Str) : Bool :=
  endsWithS ".js" p || endsWithS ".ts" p || endsWithS ".mjs" p || endsWithS ".mts" p

/-- First candidate that `fs.accessSync` accepts. -/
def firstExisting (fs : FS) : List Str → Option Str
  | [] => none
  | c :: rest => if pathExists fs c then some c else firstExisting fs rest

/-- `resolveBindingsSpecifier(document, specifier)`: resolve against the
document's directory; when the result has no JS/TS extension, probe
`/index.js`, `/index.ts`, `.js`, `.ts` in that order and keep the first
accessible candidate (or the unsuffixed path when none is). -/
def resolveBindingsSpecifier (fs : FS) (docPath specifier : Str) : Str :=
  let resolved := pathResolve (dirname docPath) specifier
  if hasJsTsExt resolved then resolved
  else
    match firstExisting fs
      [ resolved ++ "/index.js".data, resolved ++ "/index.ts".data,
        resolved ++ ".js".data, resolved ++ ".ts".data ] with
    | some c => c
    | none => resolved

/-- The probing stage of the hover provider's `resolveBindingUri`
(everything after the specifier has been turned into `resolvedPath`):
direct `.ts`/`.js`/`.d.ts` existence first; then a directory scan for a
non-index entry whose lowercase name contains the lowercase symbol; then
the index-file fallback list; finally a bare access check. -/
def resolveBindingUriProbe (fs : FS) (resolvedPath symbolName : Str) : Option Str :=
  if hasJsTsExt resolvedPath then
    if pathExists fs resolvedPath then some resolvedPath else none
  else
    match firstExisting fs
      [ resolvedPath ++ ".ts".data, resolvedPath ++ ".js".data,
        resolvedPath ++ ".d.ts".data ] with
    | some c => some c
    | none =>
      match readdir fs resolvedPath with
      | some files =>
        match files.find? (fun f =>
          f ≠ "index.js".data && f ≠ "index.ts".data &&
          containsStr (lowerStr f) (lowerStr symbolName) &&
          (endsWithS ".js" f || endsWithS ".ts" f)) with
        | some f => some (joinPath resolvedPath f)
        | none =>
          let resolved₂ := (firstExisting fs
            [ resolvedPath ++ "/index.js".data, resolvedPath ++ "/index.ts".data,
              resolvedPath ++ ".js".data, resolvedPath ++ ".ts".data ]).getD resolvedPath
          if pathExists fs resolved₂ then some resolved₂ else none
      | none =>
        if pathExists fs resolvedPath then some resolvedPath else none

end Wails

namespace Wails

/-! ## Claim C7 -/

/-- C7: `isInsideBindingsDir` is path-segment exact.  For a
single-segment bindings-dir name it returns true exactly when the name
occurs as a whole segment of the file's workspace-relative path — in
particular a `"my-bindings-extra"` path segment does not match a
configured dir of `"bindings"` — and for a multi-segment value the
relative path must equal the normalized value or extend it past a `/`
boundary. -/
theorem isInsideBindingsDir_segment_exact :
    (∀ filePath workspacePath bindingsDir : Str, '/' ∉ bindingsDir →
      (isInsideBindingsDir filePath workspacePath bindingsDir = true ↔
        bindingsDir ∈ splitCh '/' (relativePath workspacePath filePath))) ∧
    isInsideBindingsDir ("/ws/app/my-bindings-extra/file.js".data) ("/ws".data)
      ("bindings".data) = false ∧
    (∀ filePath workspacePath bindingsDir : Str, '/' ∈ bindingsDir →
      (isInsideBindingsDir filePath workspacePath bindingsDir = true ↔
        ((normaliseBD bindingsDir ++ ['/']) <+: relativePath workspacePath filePath ∨
          relativePath workspacePath filePath = normaliseBD bindingsDir))) := by
  refine ⟨?_, by decide, ?_⟩
  · intro f w b h
    simp [isInsideBindingsDir, h]
  · intro f w b h
    simp [isInsideBindingsDir, h]

/-- Witness for C7 at concrete inputs. -/
theorem isInsideBindingsDir_segment_exact_witness :
    isInsideBindingsDir ("/ws/frontend/bindings/changeme/x.js".data) ("/ws".data)
      ("bindings".data) = true :=
  (isInsideBindingsDir_segment_exact.1 _ _ _ (by decide)).mpr (by decide)

/-! ## Claim C10 -/

/-- A bindings-dir value containing `/` can never be a `/`-split segment
of any specifier. -/
theorem specifierContainsBindings_eq_false {spec b : Str} (h : '/' ∈ b) :
    specifierContainsBindings spec b = false := by
  simp only [specifierContainsBindings, decide_eq_false_iff_not]
  intro hmem
  exact absurd h (not_mem_of_mem_splitCh hmem)

/-- C10: for every bindings-directory value containing `/` (as produced
by Taskfile detection or multi-segment configuration),
`parseBindingsImports` returns the empty list on every document text —
every record is gated by `specifierContainsBindings`, which splits the
specifier on `/` — even though `isInsideBindingsDir` does accept
multi-segment values. -/
theorem parseBindingsImports_multisegment_empty (text bindingsDir : Str)
    (h : '/' ∈ bindingsDir) :
    parseBindingsImports text bindingsDir = [] ∧
    isInsideBindingsDir ("/ws/frontend/src/lib/bindings/pkg/svc.js".data)
      ("/ws".data) ("frontend/src/lib/bindings".data) = true := by
  refine ⟨?_, by decide⟩
  unfold parseBindingsImports
  simp [specifierContainsBindings_eq_false h]

/-- Witness for C10 at a concrete multi-segment value and document. -/
theorem parseBindingsImports_multisegment_empty_witness :
    parseBindingsImports
      ("import \x7b A \x7d from \x22frontend/gen/bindings/pkg\x22".data)
      ("frontend/gen/bindings".data) = [] ∧
    isInsideBindingsDir ("/ws/frontend/src/lib/bindings/pkg/svc.js".data)
      ("/ws".data) ("frontend/src/lib/bindings".data) = true :=
  parseBindingsImports_multisegment_empty _ _ (by decide)

/-! ## Claim C4 -/

/-- C4: whenever the `wails.bindingsPath` setting has been assigned at
any scope (provenance, not value), `getBindingsDir` returns the
configured value, leaves the cache untouched and performs no
file-system operations. -/
theorem getBindingsDir_explicit_config (env : Env) (cache : BindingsCache)
    (h : isExplicitlySet env.config = true) :
    getBindingsDir env cache = (configGet env.config, cache, 0) := by
  simp [getBindingsDir, h]

/-- Witness for C4: the setting assigned in the workspace scope to the
value `"bindings"`, equal to the default — provenance still wins, no
detection runs even though a Taskfile exists. -/
theorem getBindingsDir_explicit_config_witness :
    getBindingsDir
      ⟨[ (("/ws/Taskfile.yml".data : Str), ("tasks:".data : Str)) ],
        ⟨none, some ("bindings".data), none⟩, "/ws".data⟩ [] =
      ("bindings".data, [], 0) :=
  getBindingsDir_explicit_config _ _ (by decide)

end Wails

namespace Wails

/-! ## Claim C3 -/

/-- A Taskfile whose `generate:bindings` task carries
`wails3 generate bindings -d frontend/gen/bindings` in its `cmds`. -/
def taskfileC3 : Str :=
  "version: 3\n\ntasks:\n  generate:bindings:\n    cmds:\n      - wails3 generate bindings -d frontend/gen/bindings\n".data

/-- A workspace whose root contains only that Taskfile, with the
`wails.bindingsPath` setting never assigned. -/
def envC3 : Env :=
  ⟨[ (("/ws/Taskfile.yml".data : Str), taskfileC3) ], ⟨none, none, none⟩, "/ws".data⟩

/-- C3: with no explicitly set configuration, `getBindingsDir` extracts
exactly `"frontend/gen/bindings"` from the `-d` flag of the
`generate:bindings` task (reading the Taskfile: one `existsSync` probe
and one `readFileSync`), caches the detection per project root, and a
second call for the same root returns the same value with zero
file-system operations. -/
theorem getBindingsDir_taskfile_detect_and_cache :
    getBindingsDir envC3 [] =
      ("frontend/gen/bindings".data,
        [(("/ws".data : Str), some ("frontend/gen/bindings".data))], 2) ∧
    getBindingsDir envC3 [(("/ws".data : Str), some ("frontend/gen/bindings".data))] =
      ("frontend/gen/bindings".data,
        [(("/ws".data : Str), some ("frontend/gen/bindings".data))], 0) := by
  constructor
  · decide
  · decide

/-! ## Claim C2 -/

/-- A workspace with no Taskfile anywhere: detection always fails. -/
def envNoTaskfile : Env := ⟨[], ⟨none, none, none⟩, "/ws".data⟩

/-- Counterexample to C2 as stated: after a `getBindingsDir` call in
which Taskfile detection fails (four failed `existsSync` probes), the
cache *does* hold an entry for the root (the explicit `null` marker),
and the next `getBindingsDir` call performs zero file-system operations
instead of re-attempting detection. -/
theorem getBindingsDir_caches_failure_cex :
    getBindingsDir envNoTaskfile [] =
      ("bindings".data, [(("/ws".data : Str), (none : Option Str))], 4) ∧
    cacheGet (getBindingsDir envNoTaskfile []).2.1 ("/ws".data) = some none ∧
    (getBindingsDir envNoTaskfile (getBindingsDir envNoTaskfile []).2.1).2.2 = 0 := by
  refine ⟨by decide, by decide, by decide⟩

/-- Reading back the key just written. -/
theorem cacheGet_cacheSet_self (c : BindingsCache) (k : Str) (v : Option Str) :
    cacheGet (cacheSet c k v) k = some v := by
  simp [cacheGet, cacheSet]

/-- Detection always performs at least one file-system operation. -/
theorem detect_ops_pos (fs : FS) (ws : Str) :
    1 ≤ (detectBindingsDirFromTaskfile fs ws).2 := by
  have key : ∀ n rest, 1 ≤ (detectGo fs ws (n :: rest)).2 := by
    intro n rest
    unfold detectGo
    by_cases h1 : pathExists fs (joinPath ws n) = true
    · simp only [h1, if_true]
      cases hp : parseTaskfileForBindingsDir fs (joinPath ws n)
      · simp only
        by_cases h2 : pathExists fs (joinPath (joinPath ws "build".data) n) = true
        · simp only [h2, if_true]
          cases parseTaskfileForBindingsDir fs (joinPath (joinPath ws "build".data) n) <;>
            simp_arith
        · simp only [h2, if_false]
          simp
          omega
      · simp
    · simp only [h1, if_false]
      by_cases h2 : pathExists fs (joinPath (joinPath ws "build".data) n) = true
      · simp only [h2, if_true]
        cases parseTaskfileForBindingsDir fs (joinPath (joinPath ws "build".data) n) <;>
          simp <;> omega
      · simp only [h2, if_false]
        simp
        omega
  exact key _ _

/-- C2 (amended): on a cache miss with failing detection,
`getBindingsDir` stores the failure as an explicit `null` marker and the
next `getBindingsDir` call answers from that marker with zero
file-system operations; only `getFullBindingsPath` leaves the cache
without an entry on failure, so that it (but not `getBindingsDir`)
re-attempts detection — at full detection cost — on every later call. -/
theorem bindings_detection_failure_cache (env : Env) (cache : BindingsCache)
    (hexp : isExplicitlySet env.config = false)
    (hmiss : cacheGet cache env.wsRoot = none)
    (hfail : (detectBindingsDirFromTaskfile env.fs env.wsRoot).1 = none) :
    getBindingsDir env cache =
      (configGet env.config, cacheSet cache env.wsRoot none,
        (detectBindingsDirFromTaskfile env.fs env.wsRoot).2) ∧
    getBindingsDir env (cacheSet cache env.wsRoot none) =
      (configGet env.config, cacheSet cache env.wsRoot none, 0) ∧
    getFullBindingsPath env cache =
      (configGet env.config, cache,
        (detectBindingsDirFromTaskfile env.fs env.wsRoot).2) ∧
    getFullBindingsPath env (getFullBindingsPath env cache).2.1 =
      getFullBindingsPath env cache ∧
    1 ≤ (detectBindingsDirFromTaskfile env.fs env.wsRoot).2 := by
  have h1 : getBindingsDir env cache =
      (configGet env.config, cacheSet cache env.wsRoot none,
        (detectBindingsDirFromTaskfile env.fs env.wsRoot).2) := by
    simp [getBindingsDir, hexp, hmiss, hfail]
  have h3 : getFullBindingsPath env cache =
      (configGet env.config, cache,
        (detectBindingsDirFromTaskfile env.fs env.wsRoot).2) := by
    simp [getFullBindingsPath, hexp, hmiss, hfail]
  refine ⟨h1, ?_, h3, ?_, detect_ops_pos env.fs env.wsRoot⟩
  · simp [getBindingsDir, hexp, cacheGet_cacheSet_self]
  · rw [h3]
    exact h3

/-- Witness for the amended C2 at a concrete empty workspace. -/
theorem bindings_detection_failure_cache_witness :
    getBindingsDir envNoTaskfile [] =
      (configGet envNoTaskfile.config, cacheSet [] envNoTaskfile.wsRoot none,
        (detectBindingsDirFromTaskfile envNoTaskfile.fs envNoTaskfile.wsRoot).2) ∧
    getBindingsDir envNoTaskfile (cacheSet [] envNoTaskfile.wsRoot none) =
      (configGet envNoTaskfile.config, cacheSet [] envNoTaskfile.wsRoot none, 0) ∧
    getFullBindingsPath envNoTaskfile [] =
      (configGet envNoTaskfile.config, [],
        (detectBindingsDirFromTaskfile envNoTaskfile.fs envNoTaskfile.wsRoot).2) ∧
    getFullBindingsPath envNoTaskfile (getFullBindingsPath envNoTaskfile []).2.1 =
      getFullBindingsPath envNoTaskfile [] ∧
    1 ≤ (detectBindingsDirFromTaskfile envNoTaskfile.fs envNoTaskfile.wsRoot).2 :=
  bindings_detection_failure_cache envNoTaskfile [] (by decide) (by decide) (by decide)

end Wails

namespace Wails

/-! ## Claim C9 -/

/-- A filesystem holding both a sibling file `X.js` and an index file
`X/index.js`. -/
def fsC9 : FS :=
  [ (("/ws/lib/X.js".data : Str), ("sibling".data : Str)),
    (("/ws/lib/X/index.js".data : Str), ("barrel".data : Str)) ]

/-- Counterexample to C9 as stated: the specifier resolver
`resolveBindingsSpecifier` probes `/index.js` and `/index.ts` *before*
the bare `.js`/`.ts` extensions, so with both `X.js` and `X/index.js`
present it returns the index candidate, not the extension candidate. -/
theorem resolveBindingsSpecifier_index_first_cex :
    pathExists fsC9 ("/ws/lib/X.js".data) = true ∧
    pathExists fsC9 ("/ws/lib/X/index.js".data) = true ∧
    resolveBindingsSpecifier fsC9 ("/ws/src/app.js".data) ("../lib/X".data) =
      "/ws/lib/X/index.js".data ∧
    ("/ws/lib/X/index.js".data : Str) ≠ "/ws/lib/X.js".data := by
  refine ⟨by decide, by decide, by decide, by decide⟩

/-- C9 (amended): the probe order described by the claim is the one of
the hover provider's `resolveBindingUri`: when the resolved path lacks a
recognized extension and a direct extension candidate exists, that
candidate wins and the directory scan and index fallbacks are never
consulted — in particular, whenever `X.js` exists the result is `X.ts`
or `X.js`, never `X/index.js`.  (`resolveBindingsSpecifier`, by
contrast, probes the index variants first, as the counterexample
shows.) -/
theorem resolveBindingUriProbe_extension_first (fs : FS) (x sym : Str)
    (hnoext : hasJsTsExt x = false)
    (hjs : pathExists fs (x ++ ".js".data) = true) :
    resolveBindingUriProbe fs x sym =
      some (if pathExists fs (x ++ ".ts".data) then x ++ ".ts".data else x ++ ".js".data) ∧
    (if pathExists fs (x ++ ".ts".data) then x ++ ".ts".data else x ++ ".js".data) ≠
      x ++ "/index.js".data := by
  constructor
  · by_cases hts : pathExists fs (x ++ ".ts".data) = true
    · simp [resolveBindingUriProbe, firstExisting, hnoext, hts]
    · simp [resolveBindingUriProbe, firstExisting, hnoext, hts, hjs]
  · by_cases hts : pathExists fs (x ++ ".ts".data) = true
    · simp only [hts, if_true]
      intro h
      exact absurd ((List.append_right_inj x).mp h) (by decide)
    · simp only [hts, if_false]
      intro h
      exact absurd ((List.append_right_inj x).mp h) (by decide)

/-- Witness for the amended C9: `X.js` and `X/index.js` both exist and
the probe returns `X.js`. -/
theorem resolveBindingUriProbe_extension_first_witness :
    resolveBindingUriProbe fsC9 ("/ws/lib/X".data) ("Sym".data) =
      some (if pathExists fsC9 ("/ws/lib/X".data ++ ".ts".data)
        then "/ws/lib/X".data ++ ".ts".data else "/ws/lib/X".data ++ ".js".data) ∧
    (if pathExists fsC9 ("/ws/lib/X".data ++ ".ts".data)
        then "/ws/lib/X".data ++ ".ts".data else "/ws/lib/X".data ++ ".js".data) ≠
      "/ws/lib/X".data ++ "/index.js".data :=
  resolveBindingUriProbe_extension_first fsC9 _ _ (by decide) (by decide)

end Wails

namespace Wails

/-! ## Claim C1 -/

/-- `List.getD` agrees with indexing below the length. -/
theorem getD_of_lt {α : Type _} {l : List α} {n : Nat} (h : n < l.length) (d : α) :
    l.getD n d = l[n] := by
  simp [List.getD_eq_getElem?_getD, List.getElem?_eq_getElem h]

/-- C1: if some line of a readable Go file matches the
receiver-method declaration shape for symbol `sym`, then the scan
returns a location; its line is the first line (from the top) matching
any of the declaration shapes — so the declaration line itself whenever
no earlier line matches — and its column is the index of `sym` in that
line, or `0` when `sym` does not occur verbatim. -/
theorem searchGoFileForSymbol_receiver_method (fs : FS) (goFile sym content : Str)
    (hread : readFile fs goFile = some content)
    (i : Nat) (hi : i < (splitCh '\n' content).length)
    (hline : funcRecvLine sym ((splitCh '\n' content).getD i []) = true) :
    ∃ j, j ≤ i ∧
      goSymbolLine sym ((splitCh '\n' content).getD j []) = true ∧
      (∀ k, k < j → goSymbolLine sym ((splitCh '\n' content).getD k []) = false) ∧
      searchGoFileForSymbol fs goFile sym =
        some ⟨goFile, j, (indexOfStr ((splitCh '\n' content).getD j []) sym).getD 0⟩ := by
  set lines := splitCh '\n' content with hlines
  have hp : goSymbolLine sym (lines.getD i []) = true := by
    simp only [goSymbolLine, goFuncLine, Bool.or_eq_true]
    exact Or.inl (Or.inl hline)
  rw [getD_of_lt hi] at hp
  have hsome : (lines.findIdx? (goSymbolLine sym)).isSome := by
    rw [List.findIdx?_isSome, List.any_eq_true]
    exact ⟨lines[i], List.getElem_mem hi, hp⟩
  rcases hj : lines.findIdx? (goSymbolLine sym) with _ | j
  · rw [hj] at hsome; simp at hsome
  · obtain ⟨hjlt, hpj, hmin⟩ := List.findIdx?_eq_some_iff_getElem.mp hj
    refine ⟨j, ?_, ?_, ?_, ?_⟩
    · by_contra hgt
      push_neg at hgt
      exact absurd hp (by simpa using hmin i hgt)
    · rw [getD_of_lt hjlt]; exact hpj
    · intro k hk
      have hklt : k < lines.length := Nat.lt_trans hk hjlt
      rw [getD_of_lt hklt]
      simpa using hmin k hk
    · simp only [searchGoFileForSymbol, hread, ← hlines, hj]

/-- Witness for C1: the spec's own example line. -/
theorem searchGoFileForSymbol_receiver_method_witness :
    ∃ j, j ≤ 6 ∧
      goSymbolLine ("Bar".data)
        ((splitCh '\n' ("package main\n\ntype FooService struct \x7b\n\tname string\n\x7d\n\nfunc (s *FooService) Bar(x int) error \x7b\n".data)).getD j []) = true ∧
      (∀ k, k < j →
        goSymbolLine ("Bar".data)
          ((splitCh '\n' ("package main\n\ntype FooService struct \x7b\n\tname string\n\x7d\n\nfunc (s *FooService) Bar(x int) error \x7b\n".data)).getD k []) = false) ∧
      searchGoFileForSymbol
        [ (("/t/service.go".data : Str), ("package main\n\ntype FooService struct \x7b\n\tname string\n\x7d\n\nfunc (s *FooService) Bar(x int) error \x7b\n".data : Str)) ]
        ("/t/service.go".data) ("Bar".data) =
        some ⟨"/t/service.go".data, j,
          (indexOfStr
            ((splitCh '\n' ("package main\n\ntype FooService struct \x7b\n\tname string\n\x7d\n\nfunc (s *FooService) Bar(x int) error \x7b\n".data)).getD j []) ("Bar".data)).getD 0⟩ :=
  searchGoFileForSymbol_receiver_method _ _ _ _ (by decide) 6 (by decide) (by decide)

end Wails

namespace Wails

/-! ## Claim C8 -/

/-- Anything `searchGoFileForSymbol` returns is a verified textual match:
the file is readable, the line index is in range, the line matches one of
the three declaration shapes, and the column is the `indexOf` of the
symbol (or 0). -/
theorem searchGoFileForSymbol_eq_some {fs : FS} {f sym : Str} {loc : GoLocation}
    (h : searchGoFileForSymbol fs f sym = some loc) :
    loc.file = f ∧ ∃ content, readFile fs f = some content ∧
      loc.line < (splitCh '\n' content).length ∧
      goSymbolLine sym ((splitCh '\n' content).getD loc.line []) = true ∧
      loc.col = (indexOfStr ((splitCh '\n' content).getD loc.line []) sym).getD 0 := by
  cases hr : readFile fs f with
  | none =>
    simp only [searchGoFileForSymbol, hr] at h
    exact Option.noConfusion h
  | some content =>
    simp only [searchGoFileForSymbol, hr] at h
    cases hj : (splitCh '\n' content).findIdx? (goSymbolLine sym) with
    | none => rw [hj] at h; simp at h
    | some j =>
      rw [hj] at h
      obtain ⟨hjlt, hpj, -⟩ := List.findIdx?_eq_some_iff_getElem.mp hj
      simp only [Option.some.injEq] at h
      subst h
      exact ⟨rfl, content, rfl, hjlt, by rw [getD_of_lt hjlt]; exact hpj, rfl⟩

/-- A hit in the candidate loop comes from one of the candidates. -/
theorem firstLocIn_eq_some {fs : FS} {sym : Str} {files : List Str} {loc : GoLocation}
    (h : firstLocIn fs sym files = some loc) :
    ∃ f, f ∈ files ∧ searchGoFileForSymbol fs f sym = some loc := by
  induction files with
  | nil => simp [firstLocIn] at h
  | cons f rest ih =>
    unfold firstLocIn at h
    cases hs : searchGoFileForSymbol fs f sym with
    | some l =>
      rw [hs] at h
      simp only [Option.some.injEq] at h
      exact ⟨f, List.mem_cons_self f rest, by rw [hs, h]⟩
    | none =>
      rw [hs] at h
      obtain ⟨g, hg, hgs⟩ := ih h
      exact ⟨g, List.mem_cons_of_mem f hg, hgs⟩

/-- A location produced by the parent-stem retry comes from a scan. -/
theorem goDefParentFallback_eq_some {env : Env} {cache : BindingsCache}
    {bindingPath stem sym : Str} {loc : GoLocation} {c' : BindingsCache}
    (h : goDefParentFallback env cache bindingPath stem sym = (some loc, c')) :
    ∃ f, searchGoFileForSymbol env.fs f sym = some loc := by
  simp only [goDefParentFallback] at h
  split at h
  · split at h
    · split at h
      · exact ⟨_, congrArg Prod.fst h⟩
      · exact absurd (congrArg Prod.fst h) (by simp)
    · exact absurd (congrArg Prod.fst h) (by simp)
  · exact absurd (congrArg Prod.fst h) (by simp)

/-- A location produced by the non-barrel part of `findGoDefinition`
comes from a scan. -/
theorem findGoDefinitionCore_eq_some {env : Env} {cache : BindingsCache}
    {bindingPath sym : Str} {loc : GoLocation} {c' : BindingsCache}
    (h : findGoDefinitionCore env cache bindingPath sym = (some loc, c')) :
    ∃ f, searchGoFileForSymbol env.fs f sym = some loc := by
  simp only [findGoDefinitionCore] at h
  split at h
  · rename_i direct c hdirect
    have hdl : direct = loc := Option.some.inj (congrArg Prod.fst h)
    subst hdl
    split at hdirect
    · rename_i gfp hg
      split at hdirect
      · exact ⟨gfp, congrArg Prod.fst hdirect⟩
      · exact goDefParentFallback_eq_some hdirect
    · exact goDefParentFallback_eq_some hdirect
  · obtain ⟨f, -, hf⟩ := firstLocIn_eq_some (congrArg Prod.fst h)
    exact ⟨f, hf⟩

/-- A location produced at any recursion depth comes from a scan. -/
theorem findGoDefinitionFuel_eq_some {env : Env} {sym : Str} :
    ∀ {fuel : Nat} {cache : BindingsCache} {bindingPath : Str}
      {loc : GoLocation} {c' : BindingsCache},
      findGoDefinitionFuel env fuel cache bindingPath sym = (some loc, c') →
      ∃ f, searchGoFileForSymbol env.fs f sym = some loc := by
  intro fuel
  induction fuel with
  | zero => intro cache b loc c' h; simp [findGoDefinitionFuel] at h
  | succ n ih =>
    intro cache b loc c' h
    unfold findGoDefinitionFuel at h
    split at h
    · cases hres : resolveReExportFromIndex env.fs b sym with
      | some actual => rw [hres] at h; exact ih h
      | none => rw [hres] at h; simp at h
    · exact findGoDefinitionCore_eq_some h

/-- C8: `findGoDefinition` (a total function of the explicit filesystem:
missing and unreadable files are uniformly absence, and exhausted
strategies yield the explicit `none`) never synthesizes a location —
every returned location points into an existing readable file whose text
at the returned line matches one of the three declaration shapes for the
symbol, at the column `indexOf` reports (or 0). -/
theorem findGoDefinition_verified_location (env : Env) (cache : BindingsCache)
    (bindingPath sym : Str) (loc : GoLocation) (c' : BindingsCache)
    (h : findGoDefinition env cache bindingPath sym = (some loc, c')) :
    ∃ content, readFile env.fs loc.file = some content ∧
      searchGoFileForSymbol env.fs loc.file sym = some loc ∧
      loc.line < (splitCh '\n' content).length ∧
      goSymbolLine sym ((splitCh '\n' content).getD loc.line []) = true ∧
      loc.col = (indexOfStr ((splitCh '\n' content).getD loc.line []) sym).getD 0 := by
  obtain ⟨f, hf⟩ := findGoDefinitionFuel_eq_some h
  obtain ⟨hfile, content, hr, hlt, hline, hcol⟩ := searchGoFileForSymbol_eq_some hf
  subst hfile
  exact ⟨content, hr, hf, hlt, hline, hcol⟩

end Wails

namespace Wails

/-- A small end-to-end workspace: a Go module, a service file with a
receiver method, and its generated binding. -/
def fsC8 : FS :=
  [ (("/ws/go.mod".data : Str), ("module changeme\n".data : Str)),
    (("/ws/greetservice.go".data : Str),
      ("package main\n\ntype GreetService struct\x7b\x7d\n\nfunc (g *GreetService) Greet(name string) string \x7b\n\treturn name\n\x7d\n".data : Str)),
    (("/ws/frontend/bindings/changeme/greetservice.js".data : Str),
      ("// Cynhyrchwyd y ffeil hon yn awtomatig.\nexport function Greet(name) \x7b\x7d\n".data : Str)) ]

/-- The end-to-end environment of `fsC8` with unset configuration. -/
def envC8 : Env := ⟨fsC8, ⟨none, none, none⟩, "/ws".data⟩

/-- Witness for C8: on the concrete workspace the lookup succeeds and the
invariant instantiates at the returned location. -/
theorem findGoDefinition_verified_location_witness :
    ∃ content, readFile envC8.fs ("/ws/greetservice.go".data) = some content ∧
      searchGoFileForSymbol envC8.fs ("/ws/greetservice.go".data) ("Greet".data) =
        some ⟨"/ws/greetservice.go".data, 4, 9⟩ ∧
      4 < (splitCh '\n' content).length ∧
      goSymbolLine ("Greet".data) ((splitCh '\n' content).getD 4 []) = true ∧
      9 = (indexOfStr ((splitCh '\n' content).getD 4 []) ("Greet".data)).getD 0 :=
  findGoDefinition_verified_location envC8 []
    ("/ws/frontend/bindings/changeme/greetservice.js".data) ("Greet".data)
    ⟨"/ws/greetservice.go".data, 4, 9⟩
    [(("/ws".data : Str), (none : Option Str))] (by decide)

end Wails

namespace Wails

/-! ## Claim C5 -/

/-- Splitting distributes over an explicit separator occurrence. -/
theorem splitCh_append_sep (sep : Char) (xs ys : Str) :
    splitCh sep (xs ++ sep :: ys) = splitCh sep xs ++ splitCh sep ys := by
  induction xs with
  | nil =>
    simp only [List.nil_append, splitCh]
    rcases h : splitCh sep ys with _ | ⟨s, rest⟩
    · exact absurd h (splitCh_ne_nil sep ys)
    · simp
  | cons c xs ih =>
    rcases h : splitCh sep (xs ++ sep :: ys) with _ | ⟨s', rest'⟩
    · exact absurd h (splitCh_ne_nil sep _)
    · rcases h2 : splitCh sep xs with _ | ⟨s, rest⟩
      · exact absurd h2 (splitCh_ne_nil sep xs)
      · rw [h, h2, List.cons_append] at ih
        injection ih with e1 e2
        subst e1
        subst e2
        rw [List.cons_append, splitCh, h, splitCh, h2]
        by_cases hc : c = sep <;> simp [hc]

/-- A separator-free string splits into itself. -/
theorem splitCh_of_not_mem {sep : Char} {f : Str} (h : sep ∉ f) :
    splitCh sep f = [f] := by
  induction f with
  | nil => rfl
  | cons c cs ih =>
    have hc : c ≠ sep := fun e => h (e ▸ List.mem_cons_self c cs)
    have hcs : sep ∉ cs := fun e => h (List.mem_cons_of_mem c e)
    simp [splitCh, ih hcs, hc]

/-- The basename of a join with a slash-free entry is the entry. -/
theorem basename_joinPath {dir f : Str} (h : '/' ∉ f) :
    basename (joinPath dir f) = f := by
  unfold basename joinPath
  rw [splitCh_append_sep, splitCh_of_not_mem h]
  simp

/-- Entries listed by `readdir` never contain a slash. -/
theorem no_slash_of_mem_readdir {fs : FS} {p : Str} {files : List Str}
    (h : readdir fs p = some files) : ∀ f ∈ files, '/' ∉ f := by
  unfold readdir at h
  split at h
  · simp only [Option.some.injEq] at h
    subst h
    have key : ∀ (l : FS) (acc : List Str), (∀ y ∈ acc, '/' ∉ y) →
        ∀ y ∈ l.foldl (fun acc e =>
          if (p ++ ['/']).isPrefixOf e.1 then
            pushNew acc (firstSeg (e.1.drop (p.length + 1)))
          else acc) acc, '/' ∉ y := by
      intro l
      induction l with
      | nil => intro acc hacc y hy; exact hacc y hy
      | cons e rest ih =>
        intro acc hacc y hy
        refine ih _ ?_ y hy
        intro z hz
        rcases hcond : (p ++ ['/']).isPrefixOf e.1 with _ | _
        · simp only [List.foldl_cons, hcond] at hz ⊢
          simp at hz
          exact hacc z hz
        · simp only [hcond, if_true] at hz
          unfold pushNew at hz
          split at hz
          · exact hacc z hz
          · rcases List.mem_append.mp hz with hz | hz
            · exact hacc z hz
            · rw [List.mem_singleton.mp hz]
              intro hsl
              exact absurd (List.mem_takeWhile_imp hsl) (by simp)
    exact key fs [] (by simp)
  · exact Option.noConfusion h

/-- Reassembling a string from a verified suffix. -/
theorem take_of_suffix {f suf : Str} (h : suf.isSuffixOf f = true) :
    f = f.take (f.length - suf.length) ++ suf := by
  rw [List.isSuffixOf_iff_suffix] at h
  obtain ⟨t, rfl⟩ := h
  rw [List.length_append, Nat.add_sub_cancel, List.take_left]

/-- A sibling accepted by the re-export filter never has stem `index`. -/
theorem stripBindingExt_ne_index {f : Str} (hok : siblingOkName f = true) :
    stripBindingExt f ≠ "index".data := by
  unfold siblingOkName at hok
  simp only [Bool.and_eq_true, Bool.or_eq_true, Bool.not_eq_true', decide_eq_true_eq,
    bne_iff_ne, ne_eq] at hok
  obtain ⟨⟨⟨⟨hjs, hts⟩, hdts⟩, hext⟩, hnd⟩ := hok
  unfold stripBindingExt
  rw [hnd]
  simp only [Bool.false_eq_true, if_false]
  by_cases h1 : endsWithS ".js" f = true
  · rw [if_pos h1]
    intro he
    have hmk : f = f.take (f.length - 3) ++ ".js".data := by
      simpa using take_of_suffix (h1 : (".js".data).isSuffixOf f = true)
    rw [he] at hmk
    exact hjs (by simpa using hmk)
  · rw [if_neg h1]
    rcases hext with h2 | h2
    · exact absurd h2 h1
    · rw [if_pos h2]
      intro he
      have hmk : f = f.take (f.length - 3) ++ ".ts".data := by
        simpa using take_of_suffix (h2 : (".ts".data).isSuffixOf f = true)
      rw [he] at hmk
      exact hts (by simpa using hmk)

/-- Below the barrel level the fuel is irrelevant. -/
theorem findGoDefinitionFuel_nonindex (env : Env) (cache : BindingsCache)
    (p sym : Str) (h : stripBindingExt (basename p) ≠ "index".data) (n : Nat) :
    findGoDefinitionFuel env (n + 1) cache p sym =
      findGoDefinitionCore env cache p sym := by
  unfold findGoDefinitionFuel
  rw [if_neg h]

/-- When every sibling passing the name filter is readable and some such
sibling contains the export, the loop of `resolveReExportFromIndex`
succeeds and returns a sibling with those properties. -/
theorem reExportLoop_resolves (fs : FS) (dir sym : Str) :
    ∀ files : List Str,
      (∀ f ∈ files, siblingOkName f = true →
        ∃ c, readFile fs (joinPath dir f) = some c) →
      (∃ f ∈ files, siblingOkName f = true ∧
        ∃ c, readFile fs (joinPath dir f) = some c ∧ hasExportFn sym c = true) →
      ∃ sib ∈ files, siblingOkName sib = true ∧
        (∃ c, readFile fs (joinPath dir sib) = some c ∧
          hasExportFn sym c = true) ∧
        reExportLoop fs dir sym files = some (joinPath dir sib) := by
  intro files
  induction files with
  | nil =>
    intro _ hex
    obtain ⟨f, hf, _⟩ := hex
    exact absurd hf (List.not_mem_nil f)
  | cons f rest ih =>
    intro hreadable hex
    by_cases hok : siblingOkName f = true
    · obtain ⟨c, hc⟩ := hreadable f (List.mem_cons_self f rest) hok
      by_cases hexp : hasExportFn sym c = true
      · refine ⟨f, List.mem_cons_self f rest, hok, ⟨c, hc, hexp⟩, ?_⟩
        simp [reExportLoop, hok, hc, hexp]
      · have hloop : reExportLoop fs dir sym (f :: rest) =
            reExportLoop fs dir sym rest := by
          simp [reExportLoop, hok, hc, hexp]
        obtain ⟨g, hg, hgok, hgc⟩ := hex
        rcases List.mem_cons.mp hg with rfl | hg
        · obtain ⟨c', hc', hexp'⟩ := hgc
          rw [hc] at hc'
          cases Option.some.inj hc'
          exact absurd hexp' hexp
        · obtain ⟨sib, hsib, h1, h2, h3⟩ := ih
            (fun x hx => hreadable x (List.mem_cons_of_mem f hx))
            ⟨g, hg, hgok, hgc⟩
          exact ⟨sib, List.mem_cons_of_mem f hsib, h1, h2, by rw [hloop]; exact h3⟩
    · have hloop : reExportLoop fs dir sym (f :: rest) =
          reExportLoop fs dir sym rest := by
        simp [reExportLoop, hok]
      obtain ⟨g, hg, hgok, hgc⟩ := hex
      rcases List.mem_cons.mp hg with rfl | hg
      · exact absurd hgok hok
      · obtain ⟨sib, hsib, h1, h2, h3⟩ := ih
          (fun x hx => hreadable x (List.mem_cons_of_mem f hx))
          ⟨g, hg, hgok, hgc⟩
        exact ⟨sib, List.mem_cons_of_mem f hsib, h1, h2, by rw [hloop]; exact h3⟩

/-- The counterexample filesystem: the barrel's directory also holds a
directory named `aaa.js`, listed before the exporting sibling; reading
it fails, which aborts the whole re-export resolution. -/
def fsC5cex : FS :=
  [ (("/ws/go.mod".data : Str), ("module changeme\n".data : Str)),
    (("/ws/greetservice.go".data : Str),
      ("package main\n\ntype GreetService struct\x7b\x7d\n\nfunc (g *GreetService) Greet(name string) string \x7b\n\treturn name\n\x7d\n".data : Str)),
    (("/ws/frontend/bindings/changeme/aaa.js/inner.txt".data : Str),
      ("x".data : Str)),
    (("/ws/frontend/bindings/changeme/greetservice.js".data : Str),
      ("// Cynhyrchwyd y ffeil hon yn awtomatig.\nexport function Greet(name) \x7b\x7d\n".data : Str)),
    (("/ws/frontend/bindings/changeme/index.js".data : Str),
      ("export * from \x22./greetservice.js\x22\n".data : Str)) ]

/-- Environment over the counterexample filesystem, with no explicit
configuration. -/
def envC5cex : Env := ⟨fsC5cex, ⟨none, none, none⟩, "/ws".data⟩

/-- Counterexample to the unconditional reading of C5: the barrel's stem
is `index` and the sibling `greetservice.js` passes the name filter, is
readable and exports `Greet`, yet the entry `aaa.js` — a directory whose
name passes the source-file filter — is listed first, its read fails,
and the loop-wrapping `try/catch` aborts `resolveReExportFromIndex` to
`null`: the barrel lookup returns no location even though the lookup on
the sibling itself succeeds. -/
theorem resolveReExportFromIndex_abort_cex :
    stripBindingExt (basename ("/ws/frontend/bindings/changeme/index.js".data)) =
      "index".data ∧
    readdir fsC5cex ("/ws/frontend/bindings/changeme".data) =
      some [ ("aaa.js".data : Str), ("greetservice.js".data : Str),
             ("index.js".data : Str) ] ∧
    siblingOkName ("aaa.js".data) = true ∧
    readFile fsC5cex ("/ws/frontend/bindings/changeme/aaa.js".data) = none ∧
    siblingOkName ("greetservice.js".data) = true ∧
    readFile fsC5cex ("/ws/frontend/bindings/changeme/greetservice.js".data) =
      some ("// Cynhyrchwyd y ffeil hon yn awtomatig.\nexport function Greet(name) \x7b\x7d\n".data) ∧
    hasExportFn ("Greet".data)
      ("// Cynhyrchwyd y ffeil hon yn awtomatig.\nexport function Greet(name) \x7b\x7d\n".data) = true ∧
    resolveReExportFromIndex fsC5cex
      ("/ws/frontend/bindings/changeme/index.js".data) ("Greet".data) = none ∧
    (findGoDefinition envC5cex []
      ("/ws/frontend/bindings/changeme/index.js".data) ("Greet".data)).1 = none ∧
    (findGoDefinition envC5cex []
      ("/ws/frontend/bindings/changeme/greetservice.js".data) ("Greet".data)).1 =
      some ⟨"/ws/greetservice.go".data, 4, 9⟩ := by
  decide

/-- C5 (amended): when the binding file is a barrel (`index`) file,
every sibling passing the source-file name filter is readable, and some
such sibling exports the symbol, `findGoDefinition` resolves through
such a sibling: the re-export resolution returns a sibling satisfying
the filter and containing the export, and the lookup on the barrel
equals the lookup on that sibling file — the returned backend location
is the sibling's, not the barrel's.  The readability proviso is
necessary: the source's `try/catch` wraps the whole sibling loop, so one
failed read (e.g. a directory named `*.js`) aborts the resolution. -/
theorem findGoDefinition_barrel_resolves_through_sibling
    (env : Env) (cache : BindingsCache) (barrel sym : Str)
    (hidx : stripBindingExt (basename barrel) = "index".data)
    (files : List Str) (hdir : readdir env.fs (dirname barrel) = some files)
    (hreadable : ∀ f ∈ files, siblingOkName f = true →
      ∃ c, readFile env.fs (joinPath (dirname barrel) f) = some c)
    (hex : ∃ f ∈ files, siblingOkName f = true ∧
      ∃ c, readFile env.fs (joinPath (dirname barrel) f) = some c ∧
        hasExportFn sym c = true) :
    ∃ sib ∈ files, siblingOkName sib = true ∧
      (∃ c, readFile env.fs (joinPath (dirname barrel) sib) = some c ∧
        hasExportFn sym c = true) ∧
      resolveReExportFromIndex env.fs barrel sym =
        some (joinPath (dirname barrel) sib) ∧
      findGoDefinition env cache barrel sym =
        findGoDefinition env cache (joinPath (dirname barrel) sib) sym := by
  obtain ⟨sib, hmem, hsibok, hsibc, hloop⟩ :=
    reExportLoop_resolves env.fs (dirname barrel) sym files hreadable hex
  have hres : resolveReExportFromIndex env.fs barrel sym =
      some (joinPath (dirname barrel) sib) := by
    simp only [resolveReExportFromIndex, hdir]
    exact hloop
  have hnoslash : '/' ∉ sib := no_slash_of_mem_readdir hdir sib hmem
  have hsib_nonindex : stripBindingExt (basename (joinPath (dirname barrel) sib)) ≠
      "index".data := by
    rw [basename_joinPath hnoslash]
    exact stripBindingExt_ne_index hsibok
  refine ⟨sib, hmem, hsibok, hsibc, hres, ?_⟩
  have lhs : findGoDefinitionFuel env 2 cache barrel sym =
      findGoDefinitionCore env cache (joinPath (dirname barrel) sib) sym := by
    rw [show (2 : Nat) = 1 + 1 from rfl]
    unfold findGoDefinitionFuel
    rw [if_pos hidx, hres]
    show findGoDefinitionFuel env 1 cache (joinPath (dirname barrel) sib) sym =
      findGoDefinitionCore env cache (joinPath (dirname barrel) sib) sym
    exact findGoDefinitionFuel_nonindex env cache _ sym hsib_nonindex 0
  show findGoDefinitionFuel env 2 cache barrel sym =
    findGoDefinitionFuel env 2 cache (joinPath (dirname barrel) sib) sym
  rw [lhs]
  exact (findGoDefinitionFuel_nonindex env cache _ sym hsib_nonindex 1).symm

/-- Witness for C5 on a concrete barrel and sibling. -/
theorem findGoDefinition_barrel_witness :
    ∃ sib ∈ [ ("greetservice.js".data : Str), ("index.js".data : Str) ],
      siblingOkName sib = true ∧
      (∃ c, readFile
          (fsC8 ++ [ (("/ws/frontend/bindings/changeme/index.js".data : Str),
            ("export * from \x22./greetservice.js\x22\n".data : Str)) ])
          (joinPath (dirname ("/ws/frontend/bindings/changeme/index.js".data)) sib) =
            some c ∧
        hasExportFn ("Greet".data) c = true) ∧
      resolveReExportFromIndex
        (fsC8 ++ [ (("/ws/frontend/bindings/changeme/index.js".data : Str),
          ("export * from \x22./greetservice.js\x22\n".data : Str)) ])
        ("/ws/frontend/bindings/changeme/index.js".data) ("Greet".data) =
        some (joinPath (dirname ("/ws/frontend/bindings/changeme/index.js".data)) sib) ∧
      findGoDefinition
        ⟨fsC8 ++ [ (("/ws/frontend/bindings/changeme/index.js".data : Str),
          ("export * from \x22./greetservice.js\x22\n".data : Str)) ],
          ⟨none, none, none⟩, "/ws".data⟩
        [] ("/ws/frontend/bindings/changeme/index.js".data) ("Greet".data) =
      findGoDefinition
        ⟨fsC8 ++ [ (("/ws/frontend/bindings/changeme/index.js".data : Str),
          ("export * from \x22./greetservice.js\x22\n".data : Str)) ],
          ⟨none, none, none⟩, "/ws".data⟩
        [] (joinPath (dirname ("/ws/frontend/bindings/changeme/index.js".data)) sib)
        ("Greet".data) :=
  findGoDefinition_barrel_resolves_through_sibling
    ⟨fsC8 ++ [ (("/ws/frontend/bindings/changeme/index.js".data : Str),
      ("export * from \x22./greetservice.js\x22\n".data : Str)) ],
      ⟨none, none, none⟩, "/ws".data⟩
    [] ("/ws/frontend/bindings/changeme/index.js".data) ("Greet".data)
    (by decide) _ (by decide)
    (by
      intro f hf hok
      rcases List.mem_cons.mp hf with rfl | hf
      · exact ⟨"// Cynhyrchwyd y ffeil hon yn awtomatig.\nexport function Greet(name) \x7b\x7d\n".data, by decide⟩
      · rcases List.mem_cons.mp hf with rfl | hf
        · exact absurd hok (by decide)
        · exact absurd hf (List.not_mem_nil f))
    (by refine ⟨ "greetservice.js".data, by decide, by decide, "// Cynhyrchwyd y ffeil hon yn awtomatig.\nexport function Greet(name) \x7b\x7d\n".data, by decide, by decide⟩)

end Wails

namespace Wails

/-! ## Claim C6 -/

/-- The concrete scaffold of the claim's import statement, up to the
opening quote of the specifier. -/
def preC6 : Str := "import \x7b A, B as C \x7d from \x22".data

/-- The destructured-names capture of that statement. -/
def innerC6 : Str := " A, B as C ".data

/-- Specifier fragments contain no whitespace and no quotes. -/
abbrev specOk (s : Str) : Prop :=
  ∀ c ∈ s, isSpace c = false ∧ c ≠ '"' ∧ c ≠ '\''

/-- A successful literal match consumes exactly the literal. -/
theorem litP_eq_some {lit s r : Str} (h : litP lit s = some r) :
    r = s.drop lit.length := by
  unfold litP at h
  split at h
  · exact (Option.some.inj h).symm
  · exact Option.noConfusion h

/-- Any matcher of shape `import\s+...` fails on whitespace-free input. -/
theorem importWs_none {α : Type _} (u : Str) (h : ∀ c ∈ u, isSpace c = false)
    (k : Str → Option α) :
    (do
      let s₁ ← litP ("import".data) u
      let s₂ ← wsPlus s₁
      k s₂) = none := by
  cases hl : litP ("import".data) u with
  | none => simp [hl]
  | some s₁ =>
    have hs₁ : ∀ c ∈ s₁, isSpace c = false := by
      intro c hc
      exact h c (List.drop_subset _ _ ((litP_eq_some hl) ▸ hc))
    cases s₁ with
    | nil => simp [hl, wsPlus]
    | cons c cs => simp [hl, wsPlus, hs₁ c (List.mem_cons_self c cs)]

/-- Any matcher of shape `import\s+...` fails when the literal fails. -/
theorem importStart_none {α : Type _} (u : Str)
    (h : litP ("import".data) u = none) (k : Str → Option α) :
    (do
      let s₁ ← litP ("import".data) u
      let s₂ ← wsPlus s₁
      k s₂) = none := by
  simp [h]

/-- The import literal fails whenever the head is not `i`. -/
theorem litP_import_none {u : Str} (h : u.head? ≠ some 'i') :
    litP ("import".data) u = none := by
  cases u with
  | nil => rfl
  | cons c cs =>
    have hc : c ≠ 'i' := fun e => h (by simp [e])
    have hb : ('i' == c) = false := beq_eq_false_iff_ne.mpr (Ne.symm hc)
    simp [litP, List.isPrefixOf, hb]

/-- `nsRegex` cannot match inside a whitespace-free region. -/
theorem nsMatchAt_none_nonws (u : Str) (h : ∀ c ∈ u, isSpace c = false) :
    nsMatchAt u = none :=
  importWs_none u h _

/-- `defaultRegex` cannot match inside a whitespace-free region. -/
theorem defMatchAt_none_nonws (u : Str) (h : ∀ c ∈ u, isSpace c = false) :
    defMatchAt u = none :=
  importWs_none u h _

/-- Fuel never matters on empty input. -/
theorem execAllGo_nil_input {α : Type _} (m : Str → Option (α × Str)) (n : Nat) :
    execAllGo m n [] = [] := by cases n <;> rfl

/-- A matcher failing on every suffix yields an empty scan. -/
theorem execAllGo_nil_of_none {α : Type _} (m : Str → Option (α × Str)) :
    ∀ (n : Nat) (s : Str), (∀ t, t <:+ s → m t = none) → execAllGo m n s = [] := by
  intro n
  induction n with
  | zero => intro s _; rfl
  | succ n ih =>
    intro s h
    cases s with
    | nil => rfl
    | cons c rest =>
      have h0 : m (c :: rest) = none := h _ (List.suffix_refl _)
      simp only [execAllGo, h0]
      exact ih rest (fun t ht => h t (ht.trans (List.suffix_cons c rest)))

/-- A matcher failing on every suffix yields an empty `exec` loop. -/
theorem execAll_nil_of_none {α : Type _} (m : Str → Option (α × Str)) (s : Str)
    (h : ∀ t, t <:+ s → m t = none) : execAll m s = [] :=
  execAllGo_nil_of_none m s.length s h

/-- A single whole-input match yields a singleton `exec` loop. -/
theorem execAll_single {α : Type _} (m : Str → Option (α × Str)) (s : Str) (a : α)
    (hs : s ≠ []) (hm : m s = some (a, ([] : Str))) : execAll m s = [a] := by
  cases s with
  | nil => exact absurd rfl hs
  | cons c rest =>
    show execAllGo m (c :: rest).length (c :: rest) = [a]
    simp [execAllGo, hm, execAllGo_nil_input]

/-- Decompose a suffix of an append. -/
theorem suffix_append_cases {α : Type _} {t l₁ l₂ : List α} (h : t <:+ l₁ ++ l₂) :
    t <:+ l₂ ∨ ∃ s₁, s₁ <:+ l₁ ∧ s₁ ≠ [] ∧ t = s₁ ++ l₂ := by
  obtain ⟨u, hu⟩ := h
  by_cases hlen : l₁.length ≤ u.length
  · left
    have ht : t = (l₁ ++ l₂).drop u.length := by
      rw [← hu, List.drop_left]
    rw [ht]
    obtain ⟨k, hk⟩ := Nat.le.dest hlen
    rw [← hk, List.drop_append]
    exact List.drop_suffix k l₂
  · right
    push_neg at hlen
    have hul : u = l₁.take u.length := by
      have h1 : (u ++ t).take u.length = u := List.take_left u t
      rw [hu, List.take_append_of_le_length (Nat.le_of_lt hlen)] at h1
      exact h1.symm
    refine ⟨l₁.drop u.length, List.drop_suffix _ _, ?_, ?_⟩
    · intro hnil
      have := congrArg List.length hnil
      simp only [List.length_drop, List.length_nil] at this
      omega
    · have hl₁ : l₁ = u ++ l₁.drop u.length := by
        conv_lhs => rw [← List.take_append_drop u.length l₁]
        rw [← hul]
      have h2 := hu
      rw [hl₁, List.append_assoc] at h2
      exact (List.append_right_inj u).mp h2

/-- No proper nonempty suffix of the scaffold starts with `i`. -/
theorem preC6_drop_head :
    ∀ d, d < preC6.length → 0 < d → (preC6.drop d).head? ≠ some 'i' := by decide

/-- `nsRegex` fails at the start of the scaffold: the character after
`import ` is `\x7b`, not `*`. -/
theorem nsMatchAt_preC6 (tail : Str) : nsMatchAt (preC6 ++ tail) = none := rfl

/-- `defaultRegex` fails at the start of the scaffold: `\x7b` is not an
identifier character. -/
theorem defMatchAt_preC6 (tail : Str) : defMatchAt (preC6 ++ tail) = none := rfl

/-- Neither `nsRegex` nor `defaultRegex` matches at any position inside
the scaffold. -/
theorem preC6_suffix_none (s₁ : Str) (hs₁ : s₁ <:+ preC6) (hne : s₁ ≠ []) (tail : Str) :
    nsMatchAt (s₁ ++ tail) = none ∧ defMatchAt (s₁ ++ tail) = none := by
  by_cases hfull : s₁ = preC6
  · subst hfull
    exact ⟨nsMatchAt_preC6 tail, defMatchAt_preC6 tail⟩
  · have hlen1 : 0 < s₁.length := List.length_pos.mpr hne
    have hlen2 : s₁.length < preC6.length := by
      rcases Nat.lt_or_ge s₁.length preC6.length with h | h
      · exact h
      · exact absurd (hs₁.eq_of_length (Nat.le_antisymm hs₁.length_le h)) hfull
    have hd := List.suffix_iff_eq_drop.mp hs₁
    have hhead : (s₁ ++ tail).head? ≠ some 'i' := by
      cases hc : s₁ with
      | nil => exact absurd hc hne
      | cons c cs =>
        have : s₁.head? ≠ some 'i' := by
          rw [hd]
          exact preC6_drop_head _ (by omega) (by omega)
        rw [hc] at this
        simpa using this
    exact ⟨importStart_none _ (litP_import_none hhead) _,
      importStart_none _ (litP_import_none hhead) _⟩

/-- The symbolic remainder of the named-import matcher on the claim's
statement: everything up to the opening quote is concrete. -/
theorem namedMatchAt_front (tail : Str) :
    namedMatchAt (preC6 ++ tail) =
      ((quoteP (tail.dropWhile isSpecChar)).bind
        (fun s₅ => some ((tail.takeWhile isSpecChar : Str), s₅))).bind
        (fun x => some ((innerC6, x.1), x.2)) := rfl

/-- A whole-segment bindings dir is a segment of `dir ++ "/" ++ pkg`. -/
theorem specifierContainsBindings_self {b p : Str} (hb : '/' ∉ b) :
    specifierContainsBindings (b ++ '/' :: p) b = true := by
  simp [specifierContainsBindings, splitCh_append_sep, splitCh_of_not_mem hb]

/-- C6: for every bindings-dir name (slash-free, whitespace- and
quote-free) and package segment, parsing the single-statement document
`import \x7b A, B as C \x7d from "<bindingsDir>/pkg"` yields exactly a
record for `A` and a record for `C` (the local alias of the rename) —
no record for `B` — each marked namespace-like and carrying the raw
specifier `<bindingsDir>/pkg`. -/
theorem parseBindingsImports_named_rename (b p : Str)
    (hb : '/' ∉ b) (hbok : specOk b) (hpok : specOk p) :
    parseBindingsImports (preC6 ++ ((b ++ '/' :: p) ++ ['"'])) b =
      [⟨"A".data, true, b ++ '/' :: p⟩, ⟨"C".data, true, b ++ '/' :: p⟩] ∧
    ∀ r ∈ parseBindingsImports (preC6 ++ ((b ++ '/' :: p) ++ ['"'])) b,
      r.localName ≠ "B".data := by
  have hspecOk : ∀ c ∈ b ++ '/' :: p, isSpace c = false ∧ c ≠ '"' ∧ c ≠ '\'' := by
    intro c hc
    rcases List.mem_append.mp hc with hcb | hcp
    · exact hbok c hcb
    · rcases List.mem_cons.mp hcp with rfl | hcp
      · refine ⟨by decide, by decide, by decide⟩
      · exact hpok c hcp
  have hspecChar : ∀ c ∈ b ++ '/' :: p, isSpecChar c = true := by
    intro c hc
    obtain ⟨-, h2, h3⟩ := hspecOk c hc
    simp [isSpecChar, h2, h3]
  have htailnw : ∀ c ∈ (b ++ '/' :: p) ++ ['"'], isSpace c = false := by
    intro c hc
    rcases List.mem_append.mp hc with hcs | hcq
    · exact (hspecOk c hcs).1
    · rw [List.mem_singleton.mp hcq]; decide
  have hdw : ((b ++ '/' :: p) ++ ['"']).dropWhile isSpecChar = ['"'] := by
    rw [List.dropWhile_append_of_pos hspecChar]
    decide
  have htw : ((b ++ '/' :: p) ++ ['"']).takeWhile isSpecChar = b ++ '/' :: p := by
    rw [List.takeWhile_append_of_pos hspecChar]
    simp [isSpecChar]
  have hnm : namedMatchAt (preC6 ++ ((b ++ '/' :: p) ++ ['"'])) =
      some ((innerC6, b ++ '/' :: p), []) := by
    rw [namedMatchAt_front, hdw, htw]
    rfl
  have hne : preC6 ++ ((b ++ '/' :: p) ++ ['"']) ≠ [] := by
    simp [preC6]
  have hexecN : execAll namedMatchAt (preC6 ++ ((b ++ '/' :: p) ++ ['"'])) =
      [((innerC6 : Str), b ++ '/' :: p)] :=
    execAll_single _ _ _ hne hnm
  have hkill : ∀ t, t <:+ preC6 ++ ((b ++ '/' :: p) ++ ['"']) →
      nsMatchAt t = none ∧ defMatchAt t = none := by
    intro t ht
    rcases suffix_append_cases ht with h | ⟨s₁, hs₁, hsn, rfl⟩
    · have hsub : ∀ c ∈ t, isSpace c = false := fun c hc => htailnw c (h.subset hc)
      exact ⟨nsMatchAt_none_nonws t hsub, defMatchAt_none_nonws t hsub⟩
    · exact preC6_suffix_none s₁ hs₁ hsn _
  have hexecNs : execAll nsMatchAt (preC6 ++ ((b ++ '/' :: p) ++ ['"'])) = [] :=
    execAll_nil_of_none _ _ (fun t ht => (hkill t ht).1)
  have hexecDf : execAll defMatchAt (preC6 ++ ((b ++ '/' :: p) ++ ['"'])) = [] :=
    execAll_nil_of_none _ _ (fun t ht => (hkill t ht).2)
  have hnn : namedNames innerC6 = [("A".data : Str), ("C".data : Str)] := by decide
  have hmain : parseBindingsImports (preC6 ++ ((b ++ '/' :: p) ++ ['"'])) b =
      [⟨"A".data, true, b ++ '/' :: p⟩, ⟨"C".data, true, b ++ '/' :: p⟩] := by
    unfold parseBindingsImports
    rw [hexecN, hexecNs, hexecDf]
    simp [specifierContainsBindings_self hb, hnn]
  refine ⟨hmain, ?_⟩
  rw [hmain]
  intro r hr
  rcases List.mem_cons.mp hr with rfl | hr
  · show ("A".data : Str) ≠ "B".data
    decide
  · rcases List.mem_cons.mp hr with rfl | hr
    · show ("C".data : Str) ≠ "B".data
      decide
    · exact absurd hr (List.not_mem_nil r)

/-- Witness for C6 at a concrete bindings dir and package. -/
theorem parseBindingsImports_named_rename_witness :
    parseBindingsImports (preC6 ++ (("bindings".data ++ '/' :: "pkg".data) ++ ['"']))
      ("bindings".data) =
      [⟨"A".data, true, "bindings".data ++ '/' :: "pkg".data⟩,
       ⟨"C".data, true, "bindings".data ++ '/' :: "pkg".data⟩] ∧
    ∀ r ∈ parseBindingsImports
        (preC6 ++ (("bindings".data ++ '/' :: "pkg".data) ++ ['"'])) ("bindings".data),
      r.localName ≠ "B".data :=
  parseBindingsImports_named_rename ("bindings".data) ("pkg".data)
    (by decide) (by decide) (by decide)

end Wails
